import Mathlib

/-!
Shallow embedding of `src/meta/gen_encoding.py`: the instruction-encoding
table generator.  Encoding lists are serialized as sequences of 16-bit
words (we use `Nat` values, all below `2^16`), grouped by a two-level
table keyed by controlling type variable and then opcode, interned in a
shared sequence table, and annotated with documentation lines.
-/

set_option autoImplicit false

namespace GenEncoding

/-! ### Constants (gen_encoding.py lines 106-123) -/

def CODE_BITS : Nat := 16
def PRED_BITS : Nat := 12
def PRED_MASK : Nat := (1 <<< PRED_BITS) - 1

/-- `CODE_ALWAYS` is the always-true predicate sentinel (4095). -/
def CODE_ALWAYS : Nat := PRED_MASK

/-- `CODE_FAIL` marks the end of an encoding list (65535). -/
def CODE_FAIL : Nat := (1 <<< CODE_BITS) - 1

/-! ### Data model

The instruction-set description objects (instructions, type variables,
recipes, instruction predicates, encodings) are external inputs to the
generator; we model exactly the attributes `gen_encoding.py` reads:
`enc.instp.number`, `enc.recipe.number`, `enc.encbits`, `enc.inst`,
`enc.ctrl_typevar()`, `enc.cpumode`, and the string representations used
in doc comments (`str(enc)`, `str(enc.instp)`, `inst.name`, `ty.name`). -/

structure Ty where
  id : Nat
  name : String
deriving DecidableEq

structure Inst where
  id : Nat
  name : String
deriving DecidableEq

structure Instp where
  number : Nat
  str : String
deriving DecidableEq

structure Recipe where
  number : Nat
deriving DecidableEq

structure Encoding where
  inst : Inst
  ctrlTy : Option Ty
  recipe : Recipe
  encbits : Nat
  instp : Option Instp
  cpumode : String
  str : String
deriving DecidableEq

/-! ### seq_doc (lines 126-140)

`seq_doc(enc)` returns the `(predicate, recipe, encbits)` triple for one
encoding plus its doc string.  The Python `assert p <= CODE_ALWAYS` is
modelled by returning `none` when the assertion would fail. -/

def seq_doc (enc : Encoding) : Option ((Nat × Nat × Nat) × String) :=
  let pd : Nat × String :=
    match enc.instp with
    | some ip => (ip.number, "--> " ++ enc.str ++ " when " ++ ip.str)
    | none => (CODE_ALWAYS, "--> " ++ enc.str)
  if pd.1 ≤ CODE_ALWAYS then
    some ((pd.1, enc.recipe.number, enc.encbits), pd.2)
  else
    none

/-! ### The sequence interner -/

/-- First-match lookup in the interner's index. -/
def assocFind : List (List Nat × Nat) → List Nat → Option Nat
  | [], _ => none
  | (k, v) :: rest, seq => if k = seq then some v else assocFind rest seq

/-- Modelled from the spec: the Sequence Interner (`UniqueSeqTable` from
`unique_table`, not part of this repository's sources).  It "accepts
arbitrary finite sequences of 16-bit words, returns a stable offset for
each, and guarantees that identical sequences ... are stored at most
once": `table` is the flat word array, `index` maps each previously
added sequence to its offset. -/
structure UniqueSeqTable where
  table : List Nat
  index : List (List Nat × Nat)
deriving DecidableEq

/-- Modelled from the spec: `add` returns the stable offset of `seq`,
appending the words to the flat table only when the sequence was never
seen before. -/
def UniqueSeqTable.add (t : UniqueSeqTable) (seq : List Nat) : Nat × UniqueSeqTable :=
  match assocFind t.index seq with
  | some o => (o, t)
  | none => (t.table.length, ⟨t.table ++ seq, t.index ++ [(seq, t.table.length)]⟩)

def UniqueSeqTable.empty : UniqueSeqTable := ⟨[], []⟩

/-- The doc-comment table `doc_table` (a `defaultdict(list)` keyed by
offsets); modelled as the append-ordered log of `(offset, line)` pairs,
so `doc_table[k]` is the sublist of lines with key `k` in append order. -/
abbrev DocTable := List (Nat × String)

/-! ### EncList (lines 143-193) -/

structure EncList where
  inst : Inst
  ty : Option Ty
  encodings : List Encoding
deriving DecidableEq

/-- `EncList.name` (lines 161-167). -/
def EncList.name (l : EncList) : String :=
  let n := l.inst.name
  let n := match l.ty with
    | some t => n ++ "." ++ t.name
    | none => n
  match l.encodings with
  | [] => n
  | e :: _ => n ++ " (" ++ e.cpumode ++ ")"

/-- Python's `'{:06x}'.format(n)`: lowercase hex, zero-padded to width 6. -/
def hexPad6 (n : Nat) : String :=
  let s := String.mk (Nat.toDigits 16 n)
  String.mk (List.replicate (6 - s.length) '0') ++ s

/-- The loop body of `EncList.encode` (lines 181-184): accumulates the
`words` array and the `(position, doc)` pairs, one `seq_doc` triple per
encoding.  A failed assertion inside `seq_doc` aborts the build. -/
def encLoop : List Encoding → List Nat → List (Nat × String) →
    Option (List Nat × List (Nat × String))
  | [], words, docs => some (words, docs)
  | enc :: rest, words, docs =>
    match seq_doc enc with
    | none => none
    | some (seq, doc) =>
      encLoop rest (words ++ [seq.1, seq.2.1, seq.2.2]) (docs ++ [(words.length, doc)])

/-- The full word sequence `EncList.encode` hands to the interner:
the triples followed by the appended `CODE_FAIL` terminator (line 185). -/
def encWords? (encs : List Encoding) : Option (List Nat) :=
  (encLoop encs [] []).map (fun wd => wd.1 ++ [CODE_FAIL])

/-- `EncList.encode` (lines 169-193): build the word sequence, intern it
(recording the offset), then append the name line and the per-candidate
doc lines to the doc table.  We also return the interned word sequence
(the Python local `words`) so that theorems can speak about it. -/
def EncList.encode (l : EncList) (seq_table : UniqueSeqTable) (doc_table : DocTable) :
    Option (List Nat × Nat × UniqueSeqTable × DocTable) :=
  match encLoop l.encodings [] [] with
  | none => none
  | some (ws, docs) =>
    let words := ws ++ [CODE_FAIL]
    let (offset, seq_table') := seq_table.add words
    let doc_table' := doc_table ++ [(offset, hexPad6 offset ++ ": " ++ l.name)]
      ++ docs.map (fun pd => (offset + pd.1, pd.2))
    some (words, offset, seq_table', doc_table')

/-! ### Two-level tables (lines 196-247)

`Level2Table.__getitem__` / `Level1Table.__getitem__` are lazy
get-or-create lookups on insertion-ordered dictionaries; we model the
dictionaries as insertion-ordered association lists.  The single use
`table[ty][inst].encodings.append(enc)` in `make_tables` is modelled by
the update functions below: find the entry (creating it at the end on a
miss, preserving insertion order) and append the encoding to its list. -/

abbrev Level2Table := List (Inst × EncList)
abbrev Level1Table := List (Option Ty × Level2Table)

/-- Pure lookup in a level-2 table (first match, as in a dict). -/
def level2Get (l2 : Level2Table) (inst : Inst) : Option EncList :=
  match l2 with
  | [] => none
  | (i, el) :: rest => if i = inst then some el else level2Get rest inst

/-- Pure lookup in a level-1 table (first match, as in a dict). -/
def level1Get (l1 : Level1Table) (ty : Option Ty) : Option Level2Table :=
  match l1 with
  | [] => none
  | (t, l2) :: rest => if t = ty then some l2 else level1Get rest ty

/-- `table[ty][inst].encodings.append(enc)`, level-2 part: get-or-create
the `EncList` for `inst` (constructed as `EncList(inst, ty)`, line 211)
and append `enc` to it. -/
def level2Update (l2 : Level2Table) (ty : Option Ty) (inst : Inst) (enc : Encoding) :
    Level2Table :=
  match l2 with
  | [] => [(inst, ⟨inst, ty, [enc]⟩)]
  | (i, el) :: rest =>
    if i = inst then (i, { el with encodings := el.encodings ++ [enc] }) :: rest
    else (i, el) :: level2Update rest ty inst enc

/-- `table[ty][inst].encodings.append(enc)`, level-1 part: get-or-create
the `Level2Table` for `ty` (constructed as `Level2Table(ty)`, line 230)
and update it. -/
def level1Update (l1 : Level1Table) (ty : Option Ty) (inst : Inst) (enc : Encoding) :
    Level1Table :=
  match l1 with
  | [] => [(ty, level2Update [] ty inst enc)]
  | (t, l2) :: rest =>
    if t = ty then (t, level2Update l2 ty inst enc) :: rest
    else (t, l2) :: level1Update rest ty inst enc

structure CpuMode where
  encodings : List Encoding
deriving DecidableEq

/-- `make_tables` (lines 238-247): one pass over the CPU mode's
encodings, appending each to `table[enc.ctrl_typevar()][enc.inst]`. -/
def make_tables (cpumode : CpuMode) : Level1Table :=
  cpumode.encodings.foldl (fun table enc => level1Update table enc.ctrlTy enc.inst enc) []

/-- The encodings stored in the table for one `(type, opcode)` pair
(empty when no entry exists). -/
def tableEncodings (l1 : Level1Table) (ty : Option Ty) (inst : Inst) : List Encoding :=
  match level1Get l1 ty with
  | none => []
  | some l2 =>
    match level2Get l2 inst with
    | none => []
    | some el => el.encodings

/-- The encoding lists of a level-1 table in iteration order
(level-1 insertion order, then level-2 insertion order), as traversed by
`encode_enclists` (lines 250-256). -/
def allEncLists (l1 : Level1Table) : List EncList :=
  (l1.map (fun ent => ent.2.map Prod.snd)).flatten

/-- Sequentially encode a list of encoding lists through the shared
interner and doc table, recording each list's `(words, offset)` pair in
order (the Python records the offset as `self.offset`). -/
def encodeLists : List EncList → UniqueSeqTable → DocTable →
    Option (UniqueSeqTable × DocTable × List (List Nat × Nat))
  | [], st, dt => some (st, dt, [])
  | l :: rest, st, dt =>
    match l.encode st dt with
    | none => none
    | some (w, o, st', dt') =>
      match encodeLists rest st' dt' with
      | none => none
      | some (st'', dt'', log) => some (st'', dt'', (w, o) :: log)

/-- `encode_enclists` (lines 250-256): encode every list of a level-1
table, in iteration order. -/
def encode_enclists (level1 : Level1Table) (st : UniqueSeqTable) (dt : DocTable) :
    Option (UniqueSeqTable × DocTable × List (List Nat × Nat)) :=
  encodeLists (allEncLists level1) st dt

structure Isa where
  cpumodes : List CpuMode
deriving DecidableEq

/-- The per-mode loop of `gen_isa` (lines 285-287), threading the single
shared `seq_table`/`doc_table` through every CPU mode. -/
def encodeModes : List CpuMode → UniqueSeqTable → DocTable →
    Option (UniqueSeqTable × DocTable × List (List Nat × Nat))
  | [], st, dt => some (st, dt, [])
  | m :: rest, st, dt =>
    match encode_enclists (make_tables m) st dt with
    | none => none
    | some (st', dt', log) =>
      match encodeModes rest st' dt' with
      | none => none
      | some (st'', dt'', log') => some (st'', dt'', log ++ log')

/-- The table-building part of `gen_isa` (lines 276-289): a fresh
interner and doc table per ISA, shared across all of its CPU modes. -/
def gen_isa_run (isa : Isa) :
    Option (UniqueSeqTable × DocTable × List (List Nat × Nat)) :=
  encodeModes isa.cpumodes UniqueSeqTable.empty []

/-! ### The generated predicate dispatcher (lines 58-103)

`emit_instps` emits a Rust function `check_instp(inst, instp_idx)` whose
body is a `match` over the registered predicate numbers, in registration
order.  Each arm (from `emit_instp`) pattern-matches the instruction
data against the predicate's expected format and returns the predicate's
boolean value on success; an arm whose format test fails falls through
to the trailing `panic!("Bad format ...")`, and the wildcard arm panics
with "Invalid instruction predicate".  We embed the semantics of that
generated function. -/

/-- An instruction format variant name. -/
abbrev IFormat := String

/-- A decoded instruction as seen by the dispatcher: its format variant,
its opcode name, and the (abstract) field environment predicates read. -/
structure InstData where
  format : IFormat
  opcode : String
  fields : List (String × Nat)
deriving DecidableEq

/-- A registered instruction predicate: its number, the format variant
it expects (`instp.predicate_context()`), and the boolean value of its
compiled expression (`instp.rust_predicate(0)`) on an instruction. -/
structure InstPred where
  number : Nat
  context : IFormat
  eval : InstData → Bool

/-- Outcome of one call to the generated `check_instp`. -/
inductive InstpResult where
  | ok (b : Bool)
  | panicInvalid
  | panicBadFormat (format : IFormat) (opcode : String) (idx : Nat)
deriving DecidableEq

/-- Semantics of the generated `check_instp` function: the first match
arm whose predicate number equals `idx` is taken; if the instruction's
format matches the predicate's expected format the predicate value is
returned, otherwise control falls through to the "Bad format" panic
carrying the observed format, the opcode and the predicate number; an
unregistered number hits the wildcard "Invalid instruction predicate"
panic. -/
def check_instp (instps : List InstPred) (inst : InstData) (idx : Nat) : InstpResult :=
  match instps.find? (fun p => p.number == idx) with
  | none => .panicInvalid
  | some p =>
    if inst.format = p.context then .ok (p.eval inst)
    else .panicBadFormat inst.format inst.opcode idx

/-! ### Derived notions used by the theorems -/

/-- The predicate-field word `seq_doc` computes for an encoding. -/
def predField (enc : Encoding) : Nat :=
  match enc.instp with
  | some ip => ip.number
  | none => CODE_ALWAYS

/-- The doc string `seq_doc` computes for an encoding. -/
def docOf (enc : Encoding) : String :=
  match enc.instp with
  | some ip => "--> " ++ enc.str ++ " when " ++ ip.str
  | none => "--> " ++ enc.str

/-- The three words of one candidate triple. -/
def tripleWords (enc : Encoding) : List Nat :=
  [predField enc, enc.recipe.number, enc.encbits]

/-- The triples of a whole candidate list, in order. -/
def bodyWords (encs : List Encoding) : List Nat :=
  encs.foldr (fun e ws => tripleWords e ++ ws) []

/-- The `(position, doc)` pairs of a candidate list: one at each
position `0, 3, 6, ...`. -/
def docsSpec : List Encoding → List (Nat × String)
  | [] => []
  | e :: rest => (0, docOf e) :: (docsSpec rest).map (fun pd => (pd.1 + 3, pd.2))

/-- The doc lines one `encode` call appends for a list at offset `o`:
its name line, then one line per candidate. -/
def docBlock (l : EncList) (o : Nat) : DocTable :=
  (o, hexPad6 o ++ ": " ++ l.name) :: (docsSpec l.encodings).map (fun pd => (o + pd.1, pd.2))

/-- The encodings stored under `inst` in a level-2 table. -/
def l2Encodings (l2 : Level2Table) (inst : Inst) : List Encoding :=
  match level2Get l2 inst with
  | none => []
  | some el => el.encodings

/-! ### Concrete instruction-set data used by witnesses -/

def tyT : Ty := ⟨1, "T"⟩

def opInst : Inst := ⟨1, "Op"⟩

def inst2 : Inst := ⟨2, "Op2"⟩

/-- The spec's round-trip example: `(predicate=P1, recipe=5, bits=0x01)`,
with `P1` numbered 11. -/
def encP1 : Encoding := ⟨opInst, some tyT, ⟨5⟩, 1, some ⟨11, "P1"⟩, "M32", "enc1"⟩

/-- The spec's round-trip example: `(no predicate, recipe=7, bits=0x02)`. -/
def encNoP : Encoding := ⟨opInst, some tyT, ⟨7⟩, 2, none, "M32", "enc2"⟩

def listC1 : EncList := ⟨opInst, some tyT, [encP1, encNoP]⟩

/-- An encoding whose instruction predicate carries a given number. -/
def encBoundary (n : Nat) : Encoding := ⟨opInst, none, ⟨3⟩, 9, some ⟨n, "P"⟩, "M", "e"⟩

/-- An encoding whose encoding bits are the `FAIL` sentinel value. -/
def encFailBits : Encoding := ⟨opInst, none, ⟨0⟩, 65535, none, "M", "e"⟩

def encOther : Encoding := ⟨inst2, some tyT, ⟨9⟩, 4, none, "M32", "enc3"⟩

def modeC4 : CpuMode := ⟨[encP1, encNoP, encOther]⟩

def encNoTy1 : Encoding := ⟨opInst, none, ⟨1⟩, 0, none, "M", "n1"⟩

def encNoTy2 : Encoding := ⟨inst2, none, ⟨2⟩, 0, none, "M", "n2"⟩

def modeC5 : CpuMode := ⟨[encNoTy1, encNoTy2]⟩

def entC9 : Option Ty × Level2Table :=
  (none, [(opInst, ⟨opInst, none, [encNoTy1]⟩), (inst2, ⟨inst2, none, [encNoTy2]⟩)])

/-- Identical candidate triples in two different CPU modes. -/
def encA : Encoding := ⟨opInst, none, ⟨0⟩, 0, none, "A", "e"⟩

def encB : Encoding := ⟨opInst, none, ⟨0⟩, 0, none, "B", "e"⟩

def isaC6 : Isa := ⟨[⟨[encA]⟩, ⟨[encB]⟩]⟩

def listA : EncList := ⟨opInst, none, [encA]⟩

def listB : EncList := ⟨opInst, none, [encB]⟩

def stAB : UniqueSeqTable := ⟨[4095, 0, 0, 65535], [([4095, 0, 0, 65535], 0)]⟩

def dtAB : DocTable :=
  [(0, "000000: Op (A)"), (0, "--> e"), (0, "000000: Op (B)"), (0, "--> e")]

def logAB : List (List Nat × Nat) := [([4095, 0, 0, 65535], 0), ([4095, 0, 0, 65535], 0)]

/-- A registered instruction predicate for the dispatcher witness. -/
def predP : InstPred := ⟨0, "Fmt", fun _ => true⟩

def instGood : InstData := ⟨"Fmt", "op", []⟩

def instBad : InstData := ⟨"Other", "op", []⟩

/-! ### Helper lemmas -/

theorem seq_doc_eq (enc : Encoding) (h : predField enc ≤ CODE_ALWAYS) :
    seq_doc enc = some ((predField enc, enc.recipe.number, enc.encbits), docOf enc) := by
  unfold seq_doc predField docOf at *
  cases henc : enc.instp with
  | none => simp
  | some ip =>
    rw [henc] at h
    simp [h]

theorem seq_doc_some_le (enc : Encoding) (x : (Nat × Nat × Nat) × String)
    (h : seq_doc enc = some x) : predField enc ≤ CODE_ALWAYS := by
  unfold seq_doc at h
  unfold predField
  cases henc : enc.instp with
  | none => exact Nat.le_refl _
  | some ip =>
    rw [henc] at h
    by_cases hle : ip.number ≤ CODE_ALWAYS
    · exact hle
    · simp [hle] at h

theorem encLoop_ok (encs : List Encoding) (ws : List Nat) (ds : List (Nat × String))
    (h : ∀ e ∈ encs, predField e ≤ CODE_ALWAYS) :
    encLoop encs ws ds =
      some (ws ++ bodyWords encs,
        ds ++ (docsSpec encs).map (fun pd => (pd.1 + ws.length, pd.2))) := by
  induction encs generalizing ws ds with
  | nil => simp [encLoop, bodyWords, docsSpec]
  | cons e rest ih =>
    have he : predField e ≤ CODE_ALWAYS := h e (List.mem_cons_self e rest)
    rw [encLoop, seq_doc_eq e he]
    dsimp only
    rw [ih _ _ (fun x hx => h x (List.mem_cons_of_mem e hx))]
    have hbody : bodyWords (e :: rest) = tripleWords e ++ bodyWords rest := rfl
    simp only [hbody, docsSpec, tripleWords, List.map_cons, List.map_map, List.append_assoc,
      List.length_append, List.length_cons, List.length_nil, Nat.zero_add, Nat.add_zero,
      List.singleton_append]
    congr 4
    apply List.map_congr_left
    intro pd _
    simp only [Function.comp_apply, Prod.mk.injEq]
    refine ⟨by omega, ?_⟩
    trivial

theorem encLoop_some_ok (encs : List Encoding) (ws : List Nat) (ds : List (Nat × String))
    (out : List Nat × List (Nat × String)) (h : encLoop encs ws ds = some out) :
    ∀ e ∈ encs, predField e ≤ CODE_ALWAYS := by
  induction encs generalizing ws ds with
  | nil => intro e he; cases he
  | cons e rest ih =>
    rw [encLoop] at h
    cases hs : seq_doc e with
    | none => rw [hs] at h; cases h
    | some sd =>
      rw [hs] at h
      intro x hx
      rcases List.mem_cons.mp hx with hx | hx
      · rw [hx]; exact seq_doc_some_le e sd hs
      · exact ih _ _ h x hx

theorem encLoop_some_eq (encs : List Encoding) (ws : List Nat) (ds : List (Nat × String))
    (out : List Nat × List (Nat × String)) (h : encLoop encs ws ds = some out) :
    out = (ws ++ bodyWords encs,
      ds ++ (docsSpec encs).map (fun pd => (pd.1 + ws.length, pd.2))) := by
  have hok := encLoop_some_ok encs ws ds out h
  rw [encLoop_ok encs ws ds hok] at h
  exact (Option.some.injEq _ _ ▸ h).symm

theorem encWords_ok (encs : List Encoding)
    (h : ∀ e ∈ encs, predField e ≤ CODE_ALWAYS) :
    encWords? encs = some (bodyWords encs ++ [CODE_FAIL]) := by
  unfold encWords?
  rw [encLoop_ok encs [] [] h]
  rfl

theorem encWords_some_eq (encs : List Encoding) (ws : List Nat)
    (h : encWords? encs = some ws) :
    (∀ e ∈ encs, predField e ≤ CODE_ALWAYS) ∧ ws = bodyWords encs ++ [CODE_FAIL] := by
  unfold encWords? at h
  cases hl : encLoop encs [] [] with
  | none => rw [hl] at h; cases h
  | some out =>
    rw [hl] at h
    have hok := encLoop_some_ok encs [] [] out hl
    have heq := encLoop_some_eq encs [] [] out hl
    refine ⟨hok, ?_⟩
    subst heq
    simpa using h.symm

theorem bodyWords_length (encs : List Encoding) :
    (bodyWords encs).length = 3 * encs.length := by
  induction encs with
  | nil => rfl
  | cons e rest ih =>
    have : bodyWords (e :: rest) = tripleWords e ++ bodyWords rest := rfl
    rw [this]
    simp [tripleWords, ih]
    omega

theorem bodyWords_getD (encs : List Encoding) (i : Nat) (h : i < encs.length) :
    (bodyWords encs).getD (3 * i) 0 = predField (encs.get ⟨i, h⟩) := by
  induction encs generalizing i with
  | nil => cases h
  | cons e rest ih =>
    cases i with
    | zero =>
      have : bodyWords (e :: rest) = predField e :: e.recipe.number :: e.encbits :: bodyWords rest := rfl
      rw [this]
      rfl
    | succ j =>
      have hbody : bodyWords (e :: rest) =
          predField e :: e.recipe.number :: e.encbits :: bodyWords rest := rfl
      have h3 : 3 * (j + 1) = (3 * j) + 3 := by omega
      rw [hbody, h3]
      have hj : j < rest.length := by simpa using Nat.lt_of_succ_lt_succ (by simpa using h)
      simpa using ih j hj

theorem docsSpec_shift_zero (encs : List Encoding) :
    (docsSpec encs).map (fun pd => (pd.1 + 0, pd.2)) = docsSpec encs := by
  simp

theorem encode_ok (l : EncList) (st : UniqueSeqTable) (dt : DocTable)
    (h : ∀ e ∈ l.encodings, predField e ≤ CODE_ALWAYS) :
    l.encode st dt =
      some (bodyWords l.encodings ++ [CODE_FAIL],
        (st.add (bodyWords l.encodings ++ [CODE_FAIL])).1,
        (st.add (bodyWords l.encodings ++ [CODE_FAIL])).2,
        dt ++ docBlock l (st.add (bodyWords l.encodings ++ [CODE_FAIL])).1) := by
  unfold EncList.encode
  rw [encLoop_ok l.encodings [] [] h]
  simp [docBlock]

theorem encode_some_inv (l : EncList) (st : UniqueSeqTable) (dt : DocTable)
    (w : List Nat) (o : Nat) (st2 : UniqueSeqTable) (dt2 : DocTable)
    (h : l.encode st dt = some (w, o, st2, dt2)) :
    (∀ e ∈ l.encodings, predField e ≤ CODE_ALWAYS) ∧
    w = bodyWords l.encodings ++ [CODE_FAIL] ∧
    o = (st.add w).1 ∧ st2 = (st.add w).2 ∧
    dt2 = dt ++ docBlock l o := by
  have hok : ∀ e ∈ l.encodings, predField e ≤ CODE_ALWAYS := by
    unfold EncList.encode at h
    cases hl : encLoop l.encodings [] [] with
    | none => rw [hl] at h; cases h
    | some out => exact encLoop_some_ok l.encodings [] [] out hl
  rw [encode_ok l st dt hok, Option.some.injEq, Prod.mk.injEq, Prod.mk.injEq,
    Prod.mk.injEq] at h
  obtain ⟨hw, ho, hst, hdt⟩ := h
  refine ⟨hok, hw.symm, ?_, ?_, ?_⟩
  · rw [← hw]; exact ho.symm
  · rw [← hw]; exact hst.symm
  · rw [← hdt, ho]

/-! ### Table lemmas -/

theorem l2Encodings_update (l2 : Level2Table) (ty : Option Ty) (inst inst2 : Inst)
    (enc : Encoding) :
    l2Encodings (level2Update l2 ty inst enc) inst2 =
      l2Encodings l2 inst2 ++ (if inst = inst2 then [enc] else []) := by
  induction l2 with
  | nil =>
    by_cases h : inst = inst2 <;>
      simp [level2Update, level2Get, l2Encodings, h]
  | cons p rest ih =>
    obtain ⟨i, el⟩ := p
    by_cases h1 : i = inst
    · subst h1
      by_cases h2 : i = inst2
      · subst h2
        simp [level2Update, level2Get, l2Encodings]
      · simp [level2Update, level2Get, l2Encodings, h2]
    · by_cases h2 : i = inst2
      · subst h2
        have h3 : ¬ inst = i := fun hc => h1 hc.symm
        simp [level2Update, level2Get, l2Encodings, h1, h3]
      · simp only [level2Update, if_neg h1]
        simp only [l2Encodings, level2Get, if_neg h2]
        exact ih

theorem tableEncodings_update (l1 : Level1Table) (ty ty2 : Option Ty) (inst inst2 : Inst)
    (enc : Encoding) :
    tableEncodings (level1Update l1 ty inst enc) ty2 inst2 =
      tableEncodings l1 ty2 inst2 ++
        (if ty = ty2 ∧ inst = inst2 then [enc] else []) := by
  induction l1 with
  | nil =>
    by_cases h : ty = ty2
    · subst h
      have : tableEncodings (level1Update [] ty inst enc) ty inst2 =
          l2Encodings (level2Update [] ty inst enc) inst2 := by
        simp [level1Update, tableEncodings, level1Get, l2Encodings]
      rw [this, l2Encodings_update]
      by_cases h2 : inst = inst2 <;>
        simp [l2Encodings, level2Get, tableEncodings, level1Get, h2]
    · by_cases h2 : inst = inst2 <;>
        simp [level1Update, tableEncodings, level1Get, h, h2]
  | cons p rest ih =>
    obtain ⟨t, l2⟩ := p
    by_cases h1 : t = ty
    · subst h1
      by_cases h2 : t = ty2
      · subst h2
        have lhs : tableEncodings ((t, level2Update l2 t inst enc) :: rest) t inst2 =
            l2Encodings (level2Update l2 t inst enc) inst2 := by
          simp [tableEncodings, level1Get, l2Encodings]
        have rhs : tableEncodings ((t, l2) :: rest) t inst2 = l2Encodings l2 inst2 := by
          simp [tableEncodings, level1Get, l2Encodings]
        have hupd : level1Update ((t, l2) :: rest) t inst enc =
            (t, level2Update l2 t inst enc) :: rest := by
          simp [level1Update]
        rw [hupd, lhs, rhs, l2Encodings_update]
        by_cases h3 : inst = inst2
        · simp [h3]
        · simp [h3]
      · simp [level1Update, tableEncodings, level1Get, h2]
    · by_cases h2 : t = ty2
      · subst h2
        have h3 : ¬ ty = t := fun hc => h1 hc.symm
        simp [level1Update, if_neg h1, tableEncodings, level1Get, h3, l2Encodings]
      · simp only [level1Update, if_neg h1]
        simp only [tableEncodings, level1Get, if_neg h2]
        have ih2 := ih
        simp only [tableEncodings] at ih2
        exact ih2

theorem make_tables_fold (encs : List Encoding) (l1 : Level1Table) (ty : Option Ty)
    (inst : Inst) :
    tableEncodings (encs.foldl (fun t e => level1Update t e.ctrlTy e.inst e) l1) ty inst =
      tableEncodings l1 ty inst ++
        encs.filter (fun e => decide (e.ctrlTy = ty ∧ e.inst = inst)) := by
  induction encs generalizing l1 with
  | nil => simp
  | cons e rest ih =>
    rw [List.foldl_cons, ih, tableEncodings_update]
    by_cases h : e.ctrlTy = ty ∧ e.inst = inst
    · simp [h, List.filter_cons]
    · simp [h, List.filter_cons]

theorem tableEncodings_nil (ty : Option Ty) (inst : Inst) :
    tableEncodings [] ty inst = [] := rfl

/-- Grouping: the table entry for a `(type, opcode)` pair holds exactly
the CPU mode's encodings with that pair, in their original order. -/
theorem make_tables_encodings (cpumode : CpuMode) (ty : Option Ty) (inst : Inst) :
    tableEncodings (make_tables cpumode) ty inst =
      cpumode.encodings.filter (fun e => decide (e.ctrlTy = ty ∧ e.inst = inst)) := by
  unfold make_tables
  rw [make_tables_fold, tableEncodings_nil]
  rfl

theorem keys_level2Update (l2 : Level2Table) (ty : Option Ty) (inst : Inst)
    (enc : Encoding) :
    (level2Update l2 ty inst enc).map Prod.fst =
      if inst ∈ l2.map Prod.fst then l2.map Prod.fst else l2.map Prod.fst ++ [inst] := by
  induction l2 with
  | nil => simp [level2Update]
  | cons p rest ih =>
    obtain ⟨i, el⟩ := p
    by_cases h : i = inst
    · subst h
      simp [level2Update]
    · have hne : ¬ inst = i := fun hc => h hc.symm
      by_cases hm : inst ∈ rest.map Prod.fst <;>
        simp [level2Update, h, hne, hm, ih]

theorem nodup_level2Update (l2 : Level2Table) (ty : Option Ty) (inst : Inst)
    (enc : Encoding) (h : (l2.map Prod.fst).Nodup) :
    ((level2Update l2 ty inst enc).map Prod.fst).Nodup := by
  rw [keys_level2Update]
  by_cases hm : inst ∈ l2.map Prod.fst
  · simpa [hm] using h
  · simp only [if_neg hm]
    rw [List.nodup_append]
    exact ⟨h, List.nodup_singleton _, fun a ha hb => hm ((List.mem_singleton.mp hb) ▸ ha)⟩

theorem keys_level1Update (l1 : Level1Table) (ty : Option Ty) (inst : Inst)
    (enc : Encoding) :
    (level1Update l1 ty inst enc).map Prod.fst =
      if ty ∈ l1.map Prod.fst then l1.map Prod.fst else l1.map Prod.fst ++ [ty] := by
  induction l1 with
  | nil => simp [level1Update]
  | cons p rest ih =>
    obtain ⟨t, l2⟩ := p
    by_cases h : t = ty
    · subst h
      simp [level1Update]
    · have hne : ¬ ty = t := fun hc => h hc.symm
      by_cases hm : ty ∈ rest.map Prod.fst <;>
        simp [level1Update, h, hne, hm, ih]

theorem nodup_level1Update (l1 : Level1Table) (ty : Option Ty) (inst : Inst)
    (enc : Encoding) (h : (l1.map Prod.fst).Nodup) :
    ((level1Update l1 ty inst enc).map Prod.fst).Nodup := by
  rw [keys_level1Update]
  by_cases hm : ty ∈ l1.map Prod.fst
  · simpa [hm] using h
  · simp only [if_neg hm]
    rw [List.nodup_append]
    exact ⟨h, List.nodup_singleton _, fun a ha hb => hm ((List.mem_singleton.mp hb) ▸ ha)⟩

theorem entries_level1Update (l1 : Level1Table) (ty : Option Ty) (inst : Inst)
    (enc : Encoding) (h : ∀ ent ∈ l1, (ent.2.map Prod.fst).Nodup) :
    ∀ ent ∈ level1Update l1 ty inst enc, (ent.2.map Prod.fst).Nodup := by
  induction l1 with
  | nil =>
    intro ent hent
    simp only [level1Update] at hent
    rcases List.mem_singleton.mp hent with rfl
    simp [level2Update]
  | cons p rest ih =>
    obtain ⟨t, l2⟩ := p
    by_cases ht : t = ty
    · subst ht
      intro ent hent
      simp only [level1Update, if_pos rfl] at hent
      rcases List.mem_cons.mp hent with rfl | hent
      · exact nodup_level2Update l2 t inst enc (h (t, l2) (List.mem_cons_self _ _))
      · exact h ent (List.mem_cons_of_mem _ hent)
    · intro ent hent
      simp only [level1Update, if_neg ht] at hent
      rcases List.mem_cons.mp hent with rfl | hent
      · exact h (t, l2) (List.mem_cons_self _ _)
      · exact ih (fun x hx => h x (List.mem_cons_of_mem _ hx)) ent hent

theorem nonempty_level2Update (l2 : Level2Table) (ty : Option Ty) (inst : Inst)
    (enc : Encoding) (h : ∀ p ∈ l2, p.2.encodings ≠ []) :
    ∀ p ∈ level2Update l2 ty inst enc, p.2.encodings ≠ [] := by
  induction l2 with
  | nil =>
    intro p hp
    simp only [level2Update] at hp
    rcases List.mem_singleton.mp hp with rfl
    simp
  | cons q rest ih =>
    obtain ⟨i, el⟩ := q
    by_cases hi : i = inst
    · subst hi
      intro p hp
      simp only [level2Update, if_pos rfl] at hp
      rcases List.mem_cons.mp hp with rfl | hp
      · simp
      · exact h p (List.mem_cons_of_mem _ hp)
    · intro p hp
      simp only [level2Update, if_neg hi] at hp
      rcases List.mem_cons.mp hp with rfl | hp
      · exact h (i, el) (List.mem_cons_self _ _)
      · exact ih (fun x hx => h x (List.mem_cons_of_mem _ hx)) p hp

theorem nonempty_level1Update (l1 : Level1Table) (ty : Option Ty) (inst : Inst)
    (enc : Encoding) (h : ∀ ent ∈ l1, ∀ p ∈ ent.2, p.2.encodings ≠ []) :
    ∀ ent ∈ level1Update l1 ty inst enc, ∀ p ∈ ent.2, p.2.encodings ≠ [] := by
  induction l1 with
  | nil =>
    intro ent hent
    simp only [level1Update] at hent
    rcases List.mem_singleton.mp hent with rfl
    exact nonempty_level2Update [] ty inst enc (by intro p hp; cases hp)
  | cons q rest ih =>
    obtain ⟨t, l2⟩ := q
    by_cases ht : t = ty
    · subst ht
      intro ent hent
      simp only [level1Update, if_pos rfl] at hent
      rcases List.mem_cons.mp hent with rfl | hent
      · exact nonempty_level2Update l2 t inst enc (h (t, l2) (List.mem_cons_self _ _))
      · exact h ent (List.mem_cons_of_mem _ hent)
    · intro ent hent
      simp only [level1Update, if_neg ht] at hent
      rcases List.mem_cons.mp hent with rfl | hent
      · exact h (t, l2) (List.mem_cons_self _ _)
      · exact ih (fun x hx => h x (List.mem_cons_of_mem _ hx)) ent hent

/-- Any property preserved by `level1Update` holds for the folded table. -/
theorem foldl_update_pres (P : Level1Table → Prop)
    (hP : ∀ (l1 : Level1Table) (ty : Option Ty) (inst : Inst) (enc : Encoding),
      P l1 → P (level1Update l1 ty inst enc))
    (encs : List Encoding) (l1 : Level1Table) (h : P l1) :
    P (encs.foldl (fun t e => level1Update t e.ctrlTy e.inst e) l1) := by
  induction encs generalizing l1 with
  | nil => exact h
  | cons e rest ih => exact ih _ (hP _ _ _ _ h)

/-! ### Interner lemmas -/

theorem assocFind_append_some (a b : List (List Nat × Nat)) (w : List Nat) (o : Nat)
    (h : assocFind a w = some o) : assocFind (a ++ b) w = some o := by
  induction a with
  | nil => cases h
  | cons p rest ih =>
    obtain ⟨k, v⟩ := p
    by_cases hk : k = w
    · simp only [assocFind, if_pos hk] at h ⊢
      exact h
    · simp only [assocFind, if_neg hk] at h ⊢
      exact ih h

theorem assocFind_append_none (a b : List (List Nat × Nat)) (w : List Nat)
    (h : assocFind a w = none) : assocFind (a ++ b) w = assocFind b w := by
  induction a with
  | nil => rfl
  | cons p rest ih =>
    obtain ⟨k, v⟩ := p
    by_cases hk : k = w
    · simp only [assocFind, if_pos hk] at h
      exact Option.noConfusion h
    · simp only [assocFind, if_neg hk] at h ⊢
      exact ih h

theorem add_preserves (t : UniqueSeqTable) (seq w : List Nat) (o : Nat)
    (h : assocFind t.index w = some o) :
    assocFind (t.add seq).2.index w = some o := by
  unfold UniqueSeqTable.add
  cases hf : assocFind t.index seq with
  | some v => exact h
  | none => exact assocFind_append_some _ _ _ _ h

theorem add_self (t : UniqueSeqTable) (seq : List Nat) :
    assocFind (t.add seq).2.index seq = some (t.add seq).1 := by
  unfold UniqueSeqTable.add
  cases hf : assocFind t.index seq with
  | some v => exact hf
  | none =>
    rw [assocFind_append_none _ _ _ hf]
    simp [assocFind]

/-! ### Lemmas about the encoding driver -/

theorem encodeLists_good (ls : List EncList) (st : UniqueSeqTable) (dt : DocTable)
    (st2 : UniqueSeqTable) (dt2 : DocTable) (log : List (List Nat × Nat))
    (h : encodeLists ls st dt = some (st2, dt2, log)) :
    (∀ p ∈ log, assocFind st2.index p.1 = some p.2) ∧
    (∀ w o, assocFind st.index w = some o → assocFind st2.index w = some o) := by
  induction ls generalizing st dt log with
  | nil =>
    simp only [encodeLists, Option.some.injEq, Prod.mk.injEq] at h
    obtain ⟨h1, h2, h3⟩ := h
    subst h1; subst h3
    exact ⟨fun p hp => absurd hp (List.not_mem_nil p), fun w o hw => hw⟩
  | cons l rest ih =>
    rw [encodeLists] at h
    cases he : l.encode st dt with
    | none => rw [he] at h; cases h
    | some r =>
      obtain ⟨w, o, st1, dt1⟩ := r
      rw [he] at h
      dsimp only at h
      cases hr : encodeLists rest st1 dt1 with
      | none => rw [hr] at h; cases h
      | some r2 =>
        obtain ⟨st3, dt3, log3⟩ := r2
        rw [hr] at h
        dsimp only at h
        simp only [Option.some.injEq, Prod.mk.injEq] at h
        obtain ⟨hst, hdt, hlog⟩ := h
        subst hst; subst hdt; subst hlog
        obtain ⟨hok, hw, ho, hst1, hdt1⟩ := encode_some_inv l st dt w o st1 dt1 he
        obtain ⟨ihlog, ihmono⟩ := ih st1 dt1 log3 hr
        have hself : assocFind st1.index w = some o := by
          rw [hst1, ho]; exact add_self st w
        constructor
        · intro p hp
          rcases List.mem_cons.mp hp with rfl | hp
          · exact ihmono w o hself
          · exact ihlog p hp
        · intro w2 o2 hw2
          refine ihmono w2 o2 ?_
          rw [hst1]
          exact add_preserves st w w2 o2 hw2

theorem encodeModes_good (modes : List CpuMode) (st : UniqueSeqTable) (dt : DocTable)
    (st2 : UniqueSeqTable) (dt2 : DocTable) (log : List (List Nat × Nat))
    (h : encodeModes modes st dt = some (st2, dt2, log)) :
    (∀ p ∈ log, assocFind st2.index p.1 = some p.2) ∧
    (∀ w o, assocFind st.index w = some o → assocFind st2.index w = some o) := by
  induction modes generalizing st dt log with
  | nil =>
    simp only [encodeModes, Option.some.injEq, Prod.mk.injEq] at h
    obtain ⟨h1, h2, h3⟩ := h
    subst h1; subst h3
    exact ⟨fun p hp => absurd hp (List.not_mem_nil p), fun w o hw => hw⟩
  | cons m rest ih =>
    rw [encodeModes] at h
    cases he : encode_enclists (make_tables m) st dt with
    | none => rw [he] at h; cases h
    | some r =>
      obtain ⟨st1, dt1, log1⟩ := r
      rw [he] at h
      dsimp only at h
      cases hr : encodeModes rest st1 dt1 with
      | none => rw [hr] at h; cases h
      | some r2 =>
        obtain ⟨st3, dt3, log3⟩ := r2
        rw [hr] at h
        dsimp only at h
        simp only [Option.some.injEq, Prod.mk.injEq] at h
        obtain ⟨hst, hdt, hlog⟩ := h
        subst hst; subst hdt; subst hlog
        obtain ⟨glog1, gmono1⟩ := encodeLists_good _ st dt st1 dt1 log1 he
        obtain ⟨glog3, gmono3⟩ := ih st1 dt1 log3 hr
        constructor
        · intro p hp
          rcases List.mem_append.mp hp with hp | hp
          · exact gmono3 p.1 p.2 (glog1 p hp)
          · exact glog3 p hp
        · intro w o hw
          exact gmono3 w o (gmono1 w o hw)

theorem encodeLists_docs (ls : List EncList) (st : UniqueSeqTable) (dt : DocTable)
    (st2 : UniqueSeqTable) (dt2 : DocTable) (log : List (List Nat × Nat))
    (h : encodeLists ls st dt = some (st2, dt2, log)) :
    dt2 = dt ++ (List.zipWith (fun l wo => docBlock l (Prod.snd wo)) ls log).flatten ∧
    log.length = ls.length := by
  induction ls generalizing st dt log with
  | nil =>
    simp only [encodeLists, Option.some.injEq, Prod.mk.injEq] at h
    obtain ⟨h1, h2, h3⟩ := h
    subst h2; subst h3
    simp
  | cons l rest ih =>
    rw [encodeLists] at h
    cases he : l.encode st dt with
    | none => rw [he] at h; cases h
    | some r =>
      obtain ⟨w, o, st1, dt1⟩ := r
      rw [he] at h
      dsimp only at h
      cases hr : encodeLists rest st1 dt1 with
      | none => rw [hr] at h; cases h
      | some r2 =>
        obtain ⟨st3, dt3, log3⟩ := r2
        rw [hr] at h
        dsimp only at h
        simp only [Option.some.injEq, Prod.mk.injEq] at h
        obtain ⟨hst, hdt, hlog⟩ := h
        subst hst; subst hdt; subst hlog
        obtain ⟨hok, hw, ho, hst1, hdt1⟩ := encode_some_inv l st dt w o st1 dt1 he
        obtain ⟨ihdt, ihlen⟩ := ih st1 dt1 log3 hr
        constructor
        · rw [ihdt, hdt1]
          simp [List.zipWith_cons_cons]
        · simp [ihlen]

/-- The word sequence a successful `encode` call produced. -/
theorem encode_words (l : EncList) (st : UniqueSeqTable) (dt : DocTable)
    (w : List Nat) (o : Nat) (st2 : UniqueSeqTable) (dt2 : DocTable)
    (h : l.encode st dt = some (w, o, st2, dt2)) :
    encWords? l.encodings = some w := by
  obtain ⟨hok, hw, _, _, _⟩ := encode_some_inv l st dt w o st2 dt2 h
  rw [encWords_ok l.encodings hok, hw]

/-- A list whose `encWords?` is known encodes successfully, and the
interner interaction depends only on those words. -/
theorem encode_of_words (l : EncList) (st : UniqueSeqTable) (dt : DocTable)
    (w : List Nat) (h : encWords? l.encodings = some w) :
    l.encode st dt = some (w, (st.add w).1, (st.add w).2, dt ++ docBlock l (st.add w).1) := by
  obtain ⟨hok, hw⟩ := encWords_some_eq l.encodings w h
  rw [encode_ok l st dt hok, ← hw]

theorem encodeLists_words_only (ls1 : List EncList) (st : UniqueSeqTable)
    (dt1 : DocTable) (st2 : UniqueSeqTable) (dt2 : DocTable)
    (log : List (List Nat × Nat))
    (h : encodeLists ls1 st dt1 = some (st2, dt2, log)) :
    ∀ (ls2 : List EncList) (dtb : DocTable),
      ls1.map (fun l => encWords? l.encodings) = ls2.map (fun l => encWords? l.encodings) →
      ∃ dt2b, encodeLists ls2 st dtb = some (st2, dt2b, log) := by
  induction ls1 generalizing st dt1 log with
  | nil =>
    intro ls2 dtb hmap
    have hnil : ls2 = [] := by
      cases ls2 with
      | nil => rfl
      | cons a b => simp at hmap
    subst hnil
    simp only [encodeLists, Option.some.injEq, Prod.mk.injEq] at h ⊢
    exact ⟨dtb, h.1, rfl, h.2.2⟩
  | cons l rest ih =>
    intro ls2 dtb hmap
    cases ls2 with
    | nil => simp at hmap
    | cons l2 rest2 =>
      simp only [List.map_cons, List.cons.injEq] at hmap
      obtain ⟨hhead, htail⟩ := hmap
      rw [encodeLists] at h
      cases he : l.encode st dt1 with
      | none => rw [he] at h; cases h
      | some r =>
        obtain ⟨w, o, stm, dtm⟩ := r
        rw [he] at h
        dsimp only at h
        cases hr : encodeLists rest stm dtm with
        | none => rw [hr] at h; cases h
        | some r2 =>
          obtain ⟨st3, dt3, log3⟩ := r2
          rw [hr] at h
          dsimp only at h
          simp only [Option.some.injEq, Prod.mk.injEq] at h
          obtain ⟨hst, hdt, hlog⟩ := h
          subst hst; subst hdt; subst hlog
          have hw1 : encWords? l.encodings = some w := encode_words l st dt1 w o stm dtm he
          have hw2 : encWords? l2.encodings = some w := by rw [← hhead]; exact hw1
          obtain ⟨hok1, _, ho, hstm, _⟩ := encode_some_inv l st dt1 w o stm dtm he
          have he2 := encode_of_words l2 st dtb w hw2
          obtain ⟨dtx, hx⟩ := ih stm dtm log3 hr rest2 (dtb ++ docBlock l2 (st.add w).1) htail
          refine ⟨dtx, ?_⟩
          rw [encodeLists, he2]
          dsimp only
          rw [hstm] at hx
          rw [hx]
          dsimp only
          rw [ho]

/-! ### Claim theorems -/

/-- C1: for every encoding list whose assertions pass, `EncList.encode`
produces exactly the word sequence formed by, for each encoding in
order, the triple (instruction-predicate number if present, else
`ALWAYS` = 4095, then the recipe number, then the encoding bits),
followed by a single `FAIL` = 65535 word. -/
theorem C1_encode_word_sequence (l : EncList) (st : UniqueSeqTable) (dt : DocTable)
    (h : ∀ e ∈ l.encodings, predField e ≤ CODE_ALWAYS) :
    ∃ o st2 dt2,
      l.encode st dt = some (bodyWords l.encodings ++ [CODE_FAIL], o, st2, dt2) :=
  ⟨_, _, _, encode_ok l st dt h⟩

/-- Witness for C1: the spec's two-encoding example
`(predicate=P1(=11), recipe=5, bits=0x01)` then
`(no predicate, recipe=7, bits=0x02)` yields
`[11, 5, 1, 4095, 7, 2, 65535]`. -/
theorem C1_encode_word_sequence_witness :
    (∀ e ∈ listC1.encodings, predField e ≤ CODE_ALWAYS) ∧
    (∃ o st2 dt2, listC1.encode UniqueSeqTable.empty [] =
      some ([11, 5, 1, 4095, 7, 2, 65535], o, st2, dt2)) := by
  refine ⟨by decide, ?_⟩
  obtain ⟨o, st2, dt2, hh⟩ :=
    C1_encode_word_sequence listC1 UniqueSeqTable.empty [] (by decide)
  have e : bodyWords listC1.encodings ++ [CODE_FAIL] = [11, 5, 1, 4095, 7, 2, 65535] := by
    decide
  exact ⟨o, st2, dt2, by rw [← e]; exact hh⟩

/-- C2 (code evaluated at the failing input): the Python assertion
`assert p <= CODE_ALWAYS` in `seq_doc` is non-strict, so an encoding
whose instruction predicate is numbered 4095 (= `ALWAYS`) is accepted
and emitted with predicate field 4095 — byte-identical to the
no-predicate triple — instead of being rejected; 4094 is accepted and
encoded as itself, and only numbers ≥ 4096 are rejected. -/
theorem C2_assert_accepts_always_number :
    seq_doc (encBoundary 4094) = some ((4094, 3, 9), "--> e when P") ∧
    seq_doc (encBoundary 4095) = some ((4095, 3, 9), "--> e when P") ∧
    seq_doc { encBoundary 4095 with instp := none } = some ((4095, 3, 9), "--> e") ∧
    seq_doc (encBoundary 4096) = none ∧
    CODE_ALWAYS = 4095 := by
  decide

/-- C3 counterexample: nothing validates recipe numbers or encoding
bits, so an encoding whose `encbits` is 65535 puts a `FAIL` word in a
non-final position: the claim "65535 does not occur at any other
position" fails on this list. -/
theorem C3_fail_word_inside_triples :
    encWords? [encFailBits] = some [4095, 0, 65535, 65535] ∧
    ([4095, 0, 65535, 65535] : List Nat).count 65535 = 2 ∧
    CODE_FAIL = 65535 := by
  decide

/-- C3 amended: every produced word sequence is the candidate triples
followed by exactly one appended `FAIL` terminator, and `FAIL` never
occurs in a predicate-field position (those are ≤ `ALWAYS` = 4095);
recipe-number and encoding-bits words are not validated and may equal
65535. -/
theorem C3_terminator_structure (encs : List Encoding) (ws : List Nat)
    (h : encWords? encs = some ws) :
    ws = bodyWords encs ++ [CODE_FAIL] ∧
    (bodyWords encs).length = 3 * encs.length ∧
    ∀ i, i < encs.length → (bodyWords encs).getD (3 * i) 0 ≤ CODE_ALWAYS := by
  obtain ⟨hok, hw⟩ := encWords_some_eq encs ws h
  refine ⟨hw, bodyWords_length encs, ?_⟩
  intro i hi
  rw [bodyWords_getD encs i hi]
  exact hok _ (List.get_mem ..)

/-- Witness for C3 (amended): the two-encoding example list. -/
theorem C3_terminator_structure_witness :
    encWords? [encP1, encNoP] = some [11, 5, 1, 4095, 7, 2, 65535] ∧
    ([11, 5, 1, 4095, 7, 2, 65535] : List Nat) = bodyWords [encP1, encNoP] ++ [CODE_FAIL] ∧
    (bodyWords [encP1, encNoP]).length = 3 * 2 := by
  have h : encWords? [encP1, encNoP] = some [11, 5, 1, 4095, 7, 2, 65535] := by decide
  obtain ⟨h1, h2, h3⟩ := C3_terminator_structure [encP1, encNoP] _ h
  exact ⟨h, h1, h2⟩

/-- C4: no sorting — the table entry built by `make_tables` for a
`(controlling type, opcode)` pair holds exactly the CPU mode's
encodings with that pair, in their original relative order, and the
produced word sequence lays out their candidate triples in that same
order. -/
theorem C4_order_preserved (cpumode : CpuMode) (ty : Option Ty) (inst : Inst) :
    tableEncodings (make_tables cpumode) ty inst =
      cpumode.encodings.filter (fun e => decide (e.ctrlTy = ty ∧ e.inst = inst)) ∧
    ((∀ e ∈ tableEncodings (make_tables cpumode) ty inst, predField e ≤ CODE_ALWAYS) →
      encWords? (tableEncodings (make_tables cpumode) ty inst) =
        some (bodyWords (tableEncodings (make_tables cpumode) ty inst) ++ [CODE_FAIL])) :=
  ⟨make_tables_encodings cpumode ty inst, fun h => encWords_ok _ h⟩

/-- Witness for C4: a three-encoding mode whose `(T, Op)` list keeps
`[encP1, encNoP]` in declaration order. -/
theorem C4_order_preserved_witness :
    tableEncodings (make_tables modeC4) (some tyT) opInst = [encP1, encNoP] ∧
    encWords? [encP1, encNoP] = some (bodyWords [encP1, encNoP] ++ [CODE_FAIL]) := by
  obtain ⟨h1, h2⟩ := C4_order_preserved modeC4 (some tyT) opInst
  have he : tableEncodings (make_tables modeC4) (some tyT) opInst = [encP1, encNoP] := by
    decide
  refine ⟨he, ?_⟩
  have := h2 (by decide)
  rw [he] at this
  exact this

/-- C5: all encodings whose controlling type is `None` land under one
single level-1 entry keyed by `none` (level-1 keys are duplicate-free),
each level-1 entry's level-2 table is keyed without duplicates, and
every no-type encoding is found inside the `none` entry's level-2
table under its opcode. -/
theorem C5_no_type_grouping (cpumode : CpuMode) :
    ((make_tables cpumode).map Prod.fst).Nodup ∧
    (∀ ent ∈ make_tables cpumode, (ent.2.map Prod.fst).Nodup) ∧
    (∀ e ∈ cpumode.encodings, e.ctrlTy = none →
      ∃ l2 el, level1Get (make_tables cpumode) none = some l2 ∧
        level2Get l2 e.inst = some el ∧ e ∈ el.encodings) := by
  refine ⟨?_, ?_, ?_⟩
  · exact foldl_update_pres (fun t => (t.map Prod.fst).Nodup)
      (fun l1 ty inst enc h => nodup_level1Update l1 ty inst enc h)
      cpumode.encodings [] (by simp)
  · exact foldl_update_pres (fun t => ∀ ent ∈ t, (ent.2.map Prod.fst).Nodup)
      (fun l1 ty inst enc h => entries_level1Update l1 ty inst enc h)
      cpumode.encodings [] (by intro ent hent; cases hent)
  · intro e he hty
    have hmem : e ∈ tableEncodings (make_tables cpumode) none e.inst := by
      rw [make_tables_encodings]
      exact List.mem_filter.mpr ⟨he, by simp [hty]⟩
    cases h1 : level1Get (make_tables cpumode) none with
    | none =>
      simp only [tableEncodings, h1] at hmem
      exact absurd hmem (List.not_mem_nil e)
    | some l2 =>
      cases h2 : level2Get l2 e.inst with
      | none =>
        simp only [tableEncodings, h1, h2] at hmem
        exact absurd hmem (List.not_mem_nil e)
      | some el =>
        simp only [tableEncodings, h1, h2] at hmem
        exact ⟨l2, el, rfl, h2, hmem⟩

/-- Witness for C5: two no-type encodings of different opcodes share
the single `none` level-1 entry. -/
theorem C5_no_type_grouping_witness :
    ((make_tables modeC5).map Prod.fst).Nodup ∧
    (∃ l2 el, level1Get (make_tables modeC5) none = some l2 ∧
      level2Get l2 encNoTy1.inst = some el ∧ encNoTy1 ∈ el.encodings) := by
  obtain ⟨h1, h2, h3⟩ := C5_no_type_grouping modeC5
  exact ⟨h1, h3 encNoTy1 (by decide) (by decide)⟩

/-- C6: within one ISA's generation pass all CPU modes share a single
interner, so two encoding lists with the same word sequence record the
same offset, whichever modes they come from. -/
theorem C6_shared_interner_dedup (isa : Isa) (st : UniqueSeqTable) (dt : DocTable)
    (log : List (List Nat × Nat)) (h : gen_isa_run isa = some (st, dt, log)) :
    ∀ (w : List Nat) (o1 o2 : Nat), (w, o1) ∈ log → (w, o2) ∈ log → o1 = o2 := by
  intro w o1 o2 h1 h2
  obtain ⟨glog, _⟩ :=
    encodeModes_good isa.cpumodes UniqueSeqTable.empty [] st dt log h
  have e1 := glog (w, o1) h1
  have e2 := glog (w, o2) h2
  rw [e1] at e2
  exact Option.some.inj e2

/-- Witness for C6: an ISA with two CPU modes holding structurally
identical lists; both lists record offset 0. -/
theorem C6_shared_interner_dedup_witness :
    gen_isa_run isaC6 = some (stAB, dtAB, logAB) ∧ (0 : Nat) = 0 := by
  have h : gen_isa_run isaC6 = some (stAB, dtAB, logAB) := by decide
  exact ⟨h, C6_shared_interner_dedup isaC6 stAB dtAB logAB h
    [4095, 0, 0, 65535] 0 0 (by decide) (by decide)⟩

/-- C7: the generated `check_instp` returns the predicate's boolean for
every registered predicate number whose instruction has the expected
format; an unregistered number panics ("Invalid instruction
predicate"); a registered number with a mismatched format panics with
the observed format, the opcode and the predicate number. -/
theorem C7_dispatcher_totality (instps : List InstPred) (inst : InstData) (idx : Nat) :
    (∀ p, instps.find? (fun q => q.number == idx) = some p →
      (inst.format = p.context → check_instp instps inst idx = .ok (p.eval inst)) ∧
      (inst.format ≠ p.context →
        check_instp instps inst idx = .panicBadFormat inst.format inst.opcode idx)) ∧
    (instps.find? (fun q => q.number == idx) = none →
      check_instp instps inst idx = .panicInvalid) := by
  constructor
  · intro p hp
    constructor
    · intro hf
      unfold check_instp
      rw [hp]
      dsimp only
      rw [if_pos hf]
    · intro hf
      unfold check_instp
      rw [hp]
      dsimp only
      rw [if_neg hf]
  · intro hn
    unfold check_instp
    rw [hn]

/-- Witness for C7: one registered predicate, exercised on a matching
format, a mismatched format, and an unregistered number. -/
theorem C7_dispatcher_totality_witness :
    check_instp [predP] instGood 0 = .ok true ∧
    check_instp [predP] instBad 0 = .panicBadFormat "Other" "op" 0 ∧
    check_instp [predP] instGood 1 = .panicInvalid := by
  obtain ⟨hreg, _⟩ := C7_dispatcher_totality [predP] instGood 0
  obtain ⟨hreg2, _⟩ := C7_dispatcher_totality [predP] instBad 0
  obtain ⟨_, hnone3⟩ := C7_dispatcher_totality [predP] instGood 1
  refine ⟨?_, ?_, ?_⟩
  · exact (hreg predP (by rfl)).1 (by rfl)
  · exact (hreg2 predP (by rfl)).2 (by decide)
  · exact hnone3 (by rfl)

/-- C8: the builder never emits an ISA-predicate skip entry — every
predicate-field word of a produced sequence is ≤ `ALWAYS` = 4095, and
no value strictly between `ALWAYS` and `FAIL` (4096..65534) occurs in
a predicate-field position (the final such position holds the `FAIL`
terminator itself). -/
theorem C8_no_isa_skip_codes (encs : List Encoding) (ws : List Nat)
    (h : encWords? encs = some ws) :
    (∀ i, i < encs.length → ws.getD (3 * i) 0 ≤ CODE_ALWAYS) ∧
    (∀ i, i ≤ encs.length →
      ¬(CODE_ALWAYS < ws.getD (3 * i) 0 ∧ ws.getD (3 * i) 0 < CODE_FAIL)) := by
  obtain ⟨hok, hw⟩ := encWords_some_eq encs ws h
  have hlen := bodyWords_length encs
  have hpred : ∀ i, i < encs.length → ws.getD (3 * i) 0 ≤ CODE_ALWAYS := by
    intro i hi
    rw [hw, List.getD_append _ _ _ _ (by omega : 3 * i < (bodyWords encs).length),
      bodyWords_getD encs i hi]
    exact hok _ (List.get_mem ..)
  refine ⟨hpred, ?_⟩
  intro i hi
  rcases Nat.lt_or_ge i encs.length with hlt | hge
  · have := hpred i hlt
    intro hc
    omega
  · have hieq : i = encs.length := Nat.le_antisymm hi hge
    subst hieq
    have hfail : ws.getD (3 * encs.length) 0 = CODE_FAIL := by
      rw [hw, List.getD_append_right _ _ _ _
        (by omega : (bodyWords encs).length ≤ 3 * encs.length), hlen]
      simp
    intro hc
    omega

/-- Witness for C8: both predicate-field words of the example sequence
are ≤ 4095. -/
theorem C8_no_isa_skip_codes_witness :
    encWords? [encP1, encNoP] = some [11, 5, 1, 4095, 7, 2, 65535] ∧
    ([11, 5, 1, 4095, 7, 2, 65535] : List Nat).getD 0 0 ≤ CODE_ALWAYS ∧
    ([11, 5, 1, 4095, 7, 2, 65535] : List Nat).getD 3 0 ≤ CODE_ALWAYS := by
  have h : encWords? [encP1, encNoP] = some [11, 5, 1, 4095, 7, 2, 65535] := by decide
  obtain ⟨h1, _⟩ := C8_no_isa_skip_codes [encP1, encNoP] _ h
  exact ⟨h, h1 0 (by decide), h1 1 (by decide)⟩

/-- C9: every `EncList` reachable through `make_tables` is non-empty —
lists are created only at the moment an encoding is appended. -/
theorem C9_enclists_nonempty (cpumode : CpuMode) :
    ∀ ent ∈ make_tables cpumode, ∀ p ∈ ent.2, p.2.encodings ≠ [] :=
  foldl_update_pres (fun t => ∀ ent ∈ t, ∀ p ∈ ent.2, p.2.encodings ≠ [])
    (fun l1 ty inst enc h => nonempty_level1Update l1 ty inst enc h)
    cpumode.encodings [] (by intro ent hent; cases hent)

/-- Witness for C9: the list stored for `(none, Op)` in the two-entry
mode is non-empty. -/
theorem C9_enclists_nonempty_witness :
    (EncList.mk opInst none [encNoTy1]).encodings ≠ [] :=
  C9_enclists_nonempty modeC5 entC9 (by decide)
    (opInst, EncList.mk opInst none [encNoTy1]) (by decide)

/-- C10: documentation accumulation and annotation-independence — the
final doc table is the initial one followed by each list's own doc
block at that list's offset (so two lists deduplicated to one offset
both contribute their lines there), while the interner state and the
recorded `(words, offset)` log depend only on the lists' word
sequences, not on any annotation content. -/
theorem C10_doc_accumulation (ls : List EncList) (st : UniqueSeqTable) (dt : DocTable)
    (st2 : UniqueSeqTable) (dt2 : DocTable) (log : List (List Nat × Nat))
    (h : encodeLists ls st dt = some (st2, dt2, log)) :
    dt2 = dt ++ (List.zipWith (fun l wo => docBlock l (Prod.snd wo)) ls log).flatten ∧
    log.length = ls.length ∧
    (∀ (ls2 : List EncList) (dtb : DocTable),
      ls.map (fun l => encWords? l.encodings) = ls2.map (fun l => encWords? l.encodings) →
      ∃ dt2b, encodeLists ls2 st dtb = some (st2, dt2b, log)) := by
  obtain ⟨h1, h2⟩ := encodeLists_docs ls st dt st2 dt2 log h
  exact ⟨h1, h2, encodeLists_words_only ls st dt st2 dt2 log h⟩

/-- Witness for C10: two structurally identical lists with different
names intern to the same offset 0 and both append their doc lines
there. -/
theorem C10_doc_accumulation_witness :
    encodeLists [listA, listB] UniqueSeqTable.empty [] = some (stAB, dtAB, logAB) ∧
    dtAB = [] ++ (List.zipWith (fun l wo => docBlock l (Prod.snd wo))
      [listA, listB] logAB).flatten := by
  have h : encodeLists [listA, listB] UniqueSeqTable.empty [] =
      some (stAB, dtAB, logAB) := by decide
  exact ⟨h, (C10_doc_accumulation [listA, listB] UniqueSeqTable.empty []
    stAB dtAB logAB h).1⟩

end GenEncoding
